import Mathlib

/-!
Verification development for the nai-codex prompt-language subsystem.

This file shallowly embeds the prompt parser (`libs/core/src/prompt_parser.rs`),
the preset applier (`libs/core/src/preset.rs`) and the snippet resolver /
prompt processor (`libs/core/src/lib.rs`) into Lean, and proves or refutes
the specification's claims about them.

Modelling conventions:
* Rust strings are modelled as `List Char`; byte offsets are tracked
  explicitly using the UTF-8 size of each character (`csize`), so the
  `start`/`end` span fields of tokens carry the same byte offsets as the
  Rust code computes.
* Rust `f64` values are modelled as exact rationals (`ℚ`).  Every weight the
  parser manipulates is produced by `powi`, `*`, `/` on the literal `1.05`
  and by parsing decimal literals, so the rational model computes the same
  algebra the spec describes; floating-point rounding is outside the scope
  of the claims treated here.
* The tokenizer's outer `while` loop is modelled with explicit fuel
  (`parseAux`): each iteration of the Rust loop either consumes at least one
  character or repeats the identical state forever (the empty-text case), so
  a fuel of `length + 1` returns `some` exactly when the Rust loop
  terminates, and `none` exactly when it spins forever.
-/

/-- UTF-8 byte size of a character, as Rust's `char::len_utf8`. -/
def csize (c : Char) : Nat :=
  if c.val < 0x80 then 1
  else if c.val < 0x800 then 2
  else if c.val < 0x10000 then 3
  else 4

/-- Total UTF-8 byte length of a character list (Rust `str::len`). -/
def utf8Len : List Char → Nat
  | [] => 0
  | c :: r => csize c + utf8Len r

/-- Drop the characters occupying the first `n` bytes (used to read a byte
span back out of the source text). -/
def utf8Drop (l : List Char) (n : Nat) : List Char :=
  match l with
  | [] => []
  | c :: r => if n = 0 then c :: r else utf8Drop r (n - csize c)

/-- Take the characters occupying the first `n` bytes. -/
def utf8Take (l : List Char) (n : Nat) : List Char :=
  match l with
  | [] => []
  | c :: r => if n = 0 then [] else c :: utf8Take r (n - csize c)

/-- Rust `char::is_whitespace` (the Unicode `White_Space` property). -/
def rustIsWhitespace (c : Char) : Bool :=
  (0x09 ≤ c.val && c.val ≤ 0x0D) || c.val == 0x20 || c.val == 0x85 ||
  c.val == 0xA0 || c.val == 0x1680 || (0x2000 ≤ c.val && c.val ≤ 0x200A) ||
  c.val == 0x2028 || c.val == 0x2029 || c.val == 0x202F || c.val == 0x205F ||
  c.val == 0x3000

/-- `Token` from `prompt_parser.rs`: the closed set of token variants, each
carrying its half-open byte span `[start, stop)` (`stop` models the Rust
field `end`, which is a keyword in Lean). -/
inductive Token where
  | text (value : List Char) (start stop : Nat) (weight : ℚ)
  | comma (start stop : Nat)
  | whitespace (value : List Char) (start stop : Nat)
  | braceOpen (start stop : Nat) (depth : Int)
  | braceClose (start stop : Nat) (depth : Int)
  | bracketOpen (start stop : Nat) (depth : Int)
  | bracketClose (start stop : Nat) (depth : Int)
  | weightStart (value : ℚ) (start stop : Nat)
  | weightEnd (start stop : Nat)
  | snippetRef (name : List Char) (start stop : Nat) (weight : ℚ)
  | newline (start stop : Nat)
  | comment (value : List Char) (start stop : Nat)
  deriving Repr, DecidableEq

/-- `Token::start`. -/
def Token.start : Token → Nat
  | .text _ s _ _ => s
  | .comma s _ => s
  | .whitespace _ s _ => s
  | .braceOpen s _ _ => s
  | .braceClose s _ _ => s
  | .bracketOpen s _ _ => s
  | .bracketClose s _ _ => s
  | .weightStart _ s _ => s
  | .weightEnd s _ => s
  | .snippetRef _ s _ _ => s
  | .newline s _ => s
  | .comment _ s _ => s

/-- `Token::end`. -/
def Token.stop : Token → Nat
  | .text _ _ e _ => e
  | .comma _ e => e
  | .whitespace _ _ e => e
  | .braceOpen _ e _ => e
  | .braceClose _ e _ => e
  | .bracketOpen _ e _ => e
  | .bracketClose _ e _ => e
  | .weightStart _ _ e => e
  | .weightEnd _ e => e
  | .snippetRef _ _ e _ => e
  | .newline _ e => e
  | .comment _ _ e => e

/-- `ParseResult` from `prompt_parser.rs`. -/
structure ParseResult where
  tokens : List Token
  unclosed_braces : Int
  unclosed_brackets : Int
  unclosed_weight : Bool
  deriving Repr, DecidableEq

/-- `WEIGHT_MULTIPLIER`: the 1.05 emphasis base, as an exact rational. -/
def WEIGHT_MULTIPLIER : ℚ := 21 / 20

/-- `PromptParser::calculate_weight`: `1.05^braceDepth`, divided by
`1.05^bracketDepth`, times the active colon weight (`powi` on an `i32`
exponent is modelled by `zpow`). -/
def PromptParser.calculate_weight (brace_depth bracket_depth : Int)
    (colon_weight : Option ℚ) : ℚ :=
  let w1 : ℚ := 1
  let w2 := if brace_depth > 0 then w1 * WEIGHT_MULTIPLIER ^ brace_depth else w1
  let w3 := if bracket_depth > 0 then w2 / WEIGHT_MULTIPLIER ^ bracket_depth else w2
  match colon_weight with
  | some w => w3 * w
  | none => w3

/-- The inner scan of the comment rule: starting just after an opening `//`,
look for the next `//` pair; on success return the comment content and the
characters after the closing `//`. -/
def scanCommentBody : List Char → Option (List Char × List Char)
  | [] => none
  | c :: rest =>
    if c = '/' ∧ rest.head? = some '/' then some ([], rest.tail)
    else (scanCommentBody rest).map (fun p => (c :: p.1, p.2))

/-- The comment rule's guard plus inner scan: a `//` at the current position
(`ch == '/' && chars[pos+1] == '/'`) followed by a successful search for the
closing `//`. -/
def commentScan (c : Char) (rest : List Char) : Option (List Char × List Char) :=
  if c = '/' ∧ rest.head? = some '/' then scanCommentBody rest.tail else none

/-- Digit/dot collection loop of `try_parse_weight_start` (at most one dot). -/
def scanNumPart : List Char → Bool → List Char × List Char
  | [], _ => ([], [])
  | c :: rest, hasDot =>
    if c.isDigit then
      let p := scanNumPart rest hasDot
      (c :: p.1, p.2)
    else if c == '.' && !hasDot then
      let p := scanNumPart rest true
      (c :: p.1, p.2)
    else ([], c :: rest)

/-- Digit-string to natural number (`"123" ↦ 123`). -/
def natOfDigits (ds : List Char) : Nat :=
  ds.foldl (fun n c => 10 * n + (c.toNat - 48)) 0

/-- Value of a collected numeral (digits with at most one dot), as Rust's
`str::parse::<f64>` computes it, exactly in `ℚ`. -/
def ratOfNumChars (neg : Bool) (ds : List Char) : ℚ :=
  let intPart := ds.takeWhile (· ≠ '.')
  let fracPart := (ds.dropWhile (· ≠ '.')).drop 1
  let mag : ℚ := (natOfDigits (intPart ++ fracPart) : ℚ) / (10 : ℚ) ^ fracPart.length
  if neg then -mag else mag

/-- The digits-then-`::` part of `try_parse_weight_start`, after the
optional minus sign has been consumed: a digit/dot run containing at least
one digit (`has_digit`), immediately followed by `::`.  Returns the parsed
value, the consumed characters (sign included), and the rest. -/
def tryParseWeightNum (neg : Bool) (l1 : List Char) : Option (ℚ × List Char × List Char) :=
  let p := scanNumPart l1 false
  if p.1.any (·.isDigit) then
    match p.2 with
    | ':' :: ':' :: r2 =>
        some (ratOfNumChars neg p.1, (if neg then ['-'] else []) ++ p.1 ++ [':', ':'], r2)
    | _ => none
  else none

/-- `PromptParser::try_parse_weight_start` on the remaining input: an
optional `-`, then digits and `::`. -/
def tryParseWeightStart (l : List Char) : Option (ℚ × List Char × List Char) :=
  match l with
  | '-' :: r => tryParseWeightNum true r
  | _ => tryParseWeightNum false l

/-- Name collection of `try_parse_snippet_ref`: collect characters up to `>`;
fail on `<`, newline, or end of input. -/
def scanSnippetName : List Char → Option (List Char × List Char)
  | [] => none
  | c :: rest =>
    if c == '>' then some ([], rest)
    else if c == '<' || c == '\n' then none
    else (scanSnippetName rest).map (fun p => (c :: p.1, p.2))

/-- The literal prefix `"snippet:"` matched by the resolver's `strip_prefix`. -/
def snipMarker : List Char := ['s', 'n', 'i', 'p', 'p', 'e', 't', ':']

/-- The literal prefix `"<snippet:"` matched by `try_parse_snippet_ref`. -/
def snippetRefMarker : List Char := '<' :: snipMarker

/-- `PromptParser::try_parse_snippet_ref`: match `"<snippet:"`, then a name
terminated by `>`.  Returns the name, the consumed characters, and the rest. -/
def tryParseSnippetRef (l : List Char) : Option (List Char × List Char × List Char) :=
  if snippetRefMarker.isPrefixOf l then
    match scanSnippetName (l.drop 9) with
    | some p => some (p.1, snippetRefMarker ++ p.1 ++ ['>'], p.2)
    | none => none
  else none

/-- The single-character break set of the text-accumulation loop. -/
def breakChars : List Char := ['{', '}', '[', ']', ',', '\n', '\r', '<']

/-- The break condition of the text-accumulation loop in
`PromptParser::parse`: structural single characters, a `::` pair, a `//`
pair, or a would-be weight start.  Note that plain (non-newline) whitespace
is NOT in this set. -/
def textBreak (c : Char) (rest : List Char) : Bool :=
  c == '{' || c == '}' || c == '[' || c == ']' || c == ',' ||
  c == '\n' || c == '\r' || c == '<' ||
  (c == ':' && rest.head? == some ':') ||
  (c == '/' && rest.head? == some '/') ||
  ((c.isDigit || c == '-' || c == '.') && (tryParseWeightStart (c :: rest)).isSome)

/-- The text-accumulation loop: collect characters until `textBreak`. -/
def scanText : List Char → List Char × List Char
  | [] => ([], [])
  | c :: rest =>
    if textBreak c rest then ([], c :: rest)
    else
      let p := scanText rest
      (c :: p.1, p.2)

/-- The whitespace-run loop: after the first whitespace character, continue
through whitespace that is not `\n`/`\r`. -/
def scanWsRun : List Char → List Char × List Char
  | [] => ([], [])
  | c :: rest =>
    if rustIsWhitespace c && !(c == '\n') && !(c == '\r') then
      let p := scanWsRun rest
      (c :: p.1, p.2)
    else ([], c :: rest)

/-- The outcome of one iteration of the tokenizer's outer loop: the consumed
characters, the remaining input, the emitted tokens (one, or none in the
empty-text case), and the updated depth/weight state. -/
structure StepOut where
  consumed : List Char
  remaining : List Char
  emitted : List Token
  br : Int
  bk : Int
  cw : Option ℚ
  deriving Repr

/-- Text-accumulation rule (rule 9): collect text until a break position;
an empty collection emits nothing (and consumes nothing — see `parseAux`). -/
def stepText (b : Nat) (c : Char) (rest : List Char) (br bk : Int) (cw : Option ℚ) : StepOut :=
  let p := scanText (c :: rest)
  ⟨p.1, p.2,
   if p.1.isEmpty then []
   else [.text p.1 b (b + utf8Len p.1) (PromptParser.calculate_weight br bk cw)],
   br, bk, cw⟩

/-- Snippet-reference rule (rule 8), falling through to text. -/
def stepSnippet (b : Nat) (c : Char) (rest : List Char) (br bk : Int) (cw : Option ℚ) : StepOut :=
  match (if c = '<' then tryParseSnippetRef (c :: rest) else none) with
  | some q =>
      ⟨q.2.1, q.2.2,
       [.snippetRef q.1 b (b + utf8Len q.2.1) (PromptParser.calculate_weight br bk cw)],
       br, bk, cw⟩
  | none => stepText b c rest br bk cw

/-- Whitespace-run rule (rule 7), falling through to the snippet rule. -/
def stepWs (b : Nat) (c : Char) (rest : List Char) (br bk : Int) (cw : Option ℚ) : StepOut :=
  if rustIsWhitespace c then
    let p := scanWsRun rest
    ⟨c :: p.1, p.2, [.whitespace (c :: p.1) b (b + utf8Len (c :: p.1))], br, bk, cw⟩
  else stepSnippet b c rest br bk cw

/-- Weight-end, brace, bracket and comma rules (rules 4-6), falling through
to the whitespace rule.  Excess closers clamp the depth at 0. -/
def stepStructural (b : Nat) (c : Char) (rest : List Char) (br bk : Int) (cw : Option ℚ) : StepOut :=
  if c = ':' ∧ rest.head? = some ':' ∧ cw.isSome then
    ⟨[':', ':'], rest.tail, [.weightEnd b (b + 2)], br, bk, none⟩
  else if c = '{' then ⟨['{'], rest, [.braceOpen b (b + 1) (br + 1)], br + 1, bk, cw⟩
  else if c = '}' then
    ⟨['}'], rest, [.braceClose b (b + 1) (max (br - 1) 0)], max (br - 1) 0, bk, cw⟩
  else if c = '[' then ⟨['['], rest, [.bracketOpen b (b + 1) (bk + 1)], br, bk + 1, cw⟩
  else if c = ']' then
    ⟨[']'], rest, [.bracketClose b (b + 1) (max (bk - 1) 0)], br, max (bk - 1) 0, cw⟩
  else if c = ',' then ⟨[','], rest, [.comma b (b + 1)], br, bk, cw⟩
  else stepWs b c rest br bk cw

/-- Weight-start rule (rule 3, gated on a digit, `-` or `.`), falling
through to the structural rules; on success the parsed value becomes the
active colon weight. -/
def stepWeight (b : Nat) (c : Char) (rest : List Char) (br bk : Int) (cw : Option ℚ) : StepOut :=
  match (if c.isDigit || c == '-' || c == '.' then tryParseWeightStart (c :: rest) else none) with
  | some q => ⟨q.2.1, q.2.2, [.weightStart q.1 b (b + utf8Len q.2.1)], br, bk, some q.1⟩
  | none => stepStructural b c rest br bk cw

/-- Newline rule (rule 2: `\n`, or `\r` optionally followed by `\n`),
falling through to the weight-start rule. -/
def stepNl (b : Nat) (c : Char) (rest : List Char) (br bk : Int) (cw : Option ℚ) : StepOut :=
  if c = '\n' then ⟨['\n'], rest, [.newline b (b + 1)], br, bk, cw⟩
  else if c = '\r' then
    match rest with
    | '\n' :: r => ⟨['\r', '\n'], r, [.newline b (b + 2)], br, bk, cw⟩
    | _ => ⟨['\r'], rest, [.newline b (b + 1)], br, bk, cw⟩
  else stepWeight b c rest br bk cw

/-- One iteration of the scanning loop of `PromptParser::parse`, at byte
offset `b`, current character `c`, remaining characters `rest`, brace depth
`br`, bracket depth `bk` and active colon weight `cw`.  The rules appear in
the source's order, comment rule (rule 1) first; an unterminated `//` falls
through to the later rules exactly as in the source.  Every emitted token's
`stop` equals `b +` the byte length of the consumed characters, matching the
byte-offset arithmetic of the source branch by branch. -/
def step (b : Nat) (c : Char) (rest : List Char) (br bk : Int) (cw : Option ℚ) : StepOut :=
  match commentScan c rest with
  | some p =>
      ⟨'/' :: '/' :: p.1 ++ ['/', '/'], p.2,
       [.comment p.1 b (b + 2 + utf8Len p.1 + 2)], br, bk, cw⟩
  | none => stepNl b c rest br bk cw

/-- The outer `while pos < chars.len()` loop of `PromptParser::parse`, with
explicit fuel.  When the input is exhausted the trailing state is returned;
when the fuel is exhausted with input remaining, `none` is returned (in the
Rust source this situation is an infinite loop: the only fuel-consuming,
nothing-consuming iteration is the empty-text case, which repeats its state
exactly). -/
def parseAux : Nat → Nat → List Char → Int → Int → Option ℚ → List Token → Option ParseResult
  | _, _, [], br, bk, cw, acc => some ⟨acc, br, bk, cw.isSome⟩
  | 0, _, _ :: _, _, _, _, _ => none
  | fuel + 1, b, c :: rest, br, bk, cw, acc =>
    let o := step b c rest br bk cw
    parseAux fuel (b + utf8Len o.consumed) o.remaining o.br o.bk o.cw (acc ++ o.emitted)

/-- `PromptParser::parse`.  Fuel `length + 1` suffices for every terminating
run of the source loop (each productive iteration consumes at least one
character), so `none` means the Rust loop never terminates on this input. -/
def PromptParser.parse (l : List Char) : Option ParseResult :=
  parseAux (l.length + 1) 0 l 0 0 none []

/-- `PromptParser::parse` on a string literal. -/
def PromptParser.parseString (s : String) : Option ParseResult :=
  PromptParser.parse s.data

/-- On success, `scanCommentBody` splits its input into the comment content,
the closing `//`, and the remainder. -/
theorem scanCommentBody_eq : ∀ (l content rem : List Char),
    scanCommentBody l = some (content, rem) → l = content ++ '/' :: '/' :: rem := by
  intro l
  induction l with
  | nil => intro content rem h; simp [scanCommentBody] at h
  | cons c rest ih =>
    intro content rem h
    rw [scanCommentBody] at h
    split at h
    · rename_i hc
      obtain ⟨hc1, hc2⟩ := hc
      injection h with h'
      have h1 : ([] : List Char) = content := congrArg Prod.fst h'
      have h2 : rest.tail = rem := congrArg Prod.snd h'
      subst hc1
      cases rest with
      | nil => simp at hc2
      | cons r0 rt =>
        simp only [List.head?_cons, Option.some.injEq] at hc2
        subst hc2
        subst h1
        simp only [List.tail_cons] at h2
        subst h2
        simp
    · rw [Option.map_eq_some'] at h
      obtain ⟨p, hp, hfp⟩ := h
      have hp' : scanCommentBody rest = some (p.1, p.2) := by rw [Prod.mk.eta]; exact hp
      have hr := ih p.1 p.2 hp'
      have h1 : c :: p.1 = content := congrArg Prod.fst hfp
      have h2 : p.2 = rem := congrArg Prod.snd hfp
      subst h1
      subst h2
      rw [hr]
      simp

/-- The remainder returned by `scanCommentBody` is no longer than the input. -/
theorem scanCommentBody_len (l : List Char) (p : List Char × List Char)
    (h : scanCommentBody l = some p) : p.2.length ≤ l.length := by
  have := scanCommentBody_eq l p.1 p.2 (by rw [h])
  subst this
  simp
  omega

/-- `PromptParser::strip_comments`, char by char, tracking the byte offset
`b` of the current position (error positions are byte offsets, as in the
source).  The source scans bytes, but a `/` byte is always a whole `/`
character in UTF-8, so the byte-pair scan and this character-pair scan find
the same delimiters. -/
def PromptParser.stripCommentsAux (l : List Char) (b : Nat) : Except Nat (List Char) :=
  match l with
  | [] => Except.ok []
  | c :: rest =>
    if c = '/' ∧ rest.head? = some '/' then
      match h : scanCommentBody rest.tail with
      | some p => PromptParser.stripCommentsAux p.2 (b + 2 + utf8Len p.1 + 2)
      | none => Except.error b
    else
      (PromptParser.stripCommentsAux rest (b + csize c)).map (fun out => c :: out)
termination_by l.length
decreasing_by
  · have hl := scanCommentBody_len _ _ h
    simp only [List.length_tail] at hl
    simp only [List.length_cons]
    omega
  · simp only [List.length_cons]
    omega

/-- `PromptParser::strip_comments`. -/
def PromptParser.strip_comments (l : List Char) : Except Nat (List Char) :=
  PromptParser.stripCommentsAux l 0

/-- Specification-side predicate, following §4.3's words: scanning left to
right, on encountering `//` flip between "outside" and "inside" a comment;
the input is balanced when the scan ends outside a comment.  `inside`
records whether a comment is currently open. -/
def commentsBalanced (l : List Char) (inside : Bool) : Bool :=
  match l with
  | [] => !inside
  | c :: rest =>
    if c = '/' ∧ rest.head? = some '/' then commentsBalanced rest.tail (!inside)
    else commentsBalanced rest inside
termination_by l.length
decreasing_by
  · simp only [List.length_tail, List.length_cons]
    omega
  · simp only [List.length_cons]
    omega

/-- Decimal digits of a natural number. -/
def natToChars (n : Nat) : List Char := Nat.toDigits 10 n

/-- Decimal rendering of an integer. -/
def intToChars (i : Int) : List Char :=
  if i < 0 then '-' :: natToChars i.natAbs else natToChars i.natAbs

/-- Rendering of a `WeightStart` numeral by the formatter: integral values
(`*value == value.floor()`) print without a fractional part (the `as i64`
cast); other values print as their minimal decimal expansion, modelling
Rust's `Display` for the finite decimal values the tokenizer produces. -/
def renderWeightNum (v : ℚ) : List Char :=
  if v.den = 1 then intToChars v.num
  else
    let sign : List Char := if v.num < 0 then ['-'] else []
    let s := v.num.natAbs
    let ip := s / v.den
    let fr := s % v.den
    let raw := natToChars (fr * 10 ^ v.den / v.den)
    let padded := List.replicate (v.den - raw.length) '0' ++ raw
    let minimal := (padded.reverse.dropWhile (· == '0')).reverse
    sign ++ natToChars ip ++ '.' :: minimal

/-- Is the previous token a comma? (`matches!(prev_token, Some(Comma))`). -/
def isCommaTok : Option Token → Bool
  | some (.comma _ _) => true
  | _ => false

/-- The serialization loop of `PromptParser::format`, tracking the
consecutive-newline count `cn`, the previous token and the output built so
far, exactly as the source's single pass does. -/
def formatLoop : List Token → Nat → Option Token → List Char → List Char
  | [], _, _, out => out
  | t :: rest, cn, prev, out =>
    match t with
    | .newline _ _ =>
        formatLoop rest (cn + 1) (some t) (if cn + 1 ≤ 2 then out ++ ['\n'] else out)
    | .comma _ _ => formatLoop rest 0 (some t) (out ++ [','])
    | .whitespace v _ _ =>
        let out1 := if isCommaTok prev && !(v.head? == some ' ') then out ++ [' '] else out
        let out2 := if cn > 0 then out1 ++ v else out1 ++ [' ']
        formatLoop rest 0 (some t) out2
    | .weightEnd _ _ =>
        let out1 := if !(out.getLast? == some ' ') && !(out.getLast? == some '\n')
          then out ++ [' '] else out
        formatLoop rest 0 (some t) (out1 ++ [':', ':'])
    | .text v _ _ _ =>
        let out1 := if isCommaTok prev && !(out.getLast? == some ' ') then out ++ [' '] else out
        formatLoop rest 0 (some t) (out1 ++ v)
    | .braceOpen _ _ _ => formatLoop rest 0 (some t) (out ++ ['{'])
    | .braceClose _ _ _ => formatLoop rest 0 (some t) (out ++ ['}'])
    | .bracketOpen _ _ _ => formatLoop rest 0 (some t) (out ++ ['['])
    | .bracketClose _ _ _ => formatLoop rest 0 (some t) (out ++ [']'])
    | .weightStart v _ _ =>
        formatLoop rest 0 (some t) (out ++ renderWeightNum v ++ [':', ':'])
    | .snippetRef name _ _ _ =>
        let out1 := if isCommaTok prev && !(out.getLast? == some ' ') then out ++ [' '] else out
        formatLoop rest 0 (some t) (out1 ++ '<' :: snipMarker ++ name ++ ['>'])
    | .comment v _ _ =>
        formatLoop rest 0 (some t) (out ++ '/' :: '/' :: v ++ ['/', '/'])

/-- `PromptParser::format`: re-tokenize, then serialize.  `none` when the
tokenizer itself never returns (see `parseAux`). -/
def PromptParser.format (l : List Char) : Option (List Char) :=
  (PromptParser.parse l).map fun r => formatLoop r.tokens 0 none []

/-- `PromptParser::format` on a string literal. -/
def PromptParser.formatString (s : String) : Option (List Char) :=
  PromptParser.format s.data

/-- Rust `str::trim_end` (with the Unicode whitespace set). -/
def rustTrimEnd (l : List Char) : List Char :=
  (l.reverse.dropWhile rustIsWhitespace).reverse

/-- Rust `str::trim`. -/
def rustTrim (l : List Char) : List Char :=
  rustTrimEnd (l.dropWhile rustIsWhitespace)

/-- `preset.rs`'s `is_blank`: absent, or empty after trimming. -/
def is_blank : Option (List Char) → Bool
  | none => true
  | some s => (rustTrim s).isEmpty

/-- `MainPresetSettings` (the six rewrite fields). -/
structure MainPresetSettings where
  before : Option (List Char)
  after : Option (List Char)
  replace : Option (List Char)
  uc_before : Option (List Char)
  uc_after : Option (List Char)
  uc_replace : Option (List Char)
  deriving Repr, DecidableEq

/-- `MainPresetSettings::apply_positive`. -/
def MainPresetSettings.apply_positive (p : MainPresetSettings) (raw : List Char) : List Char :=
  if is_blank p.replace = false then p.replace.getD []
  else
    let r1 :=
      if is_blank p.before = false then
        let r := rustTrim (p.before.getD [])
        if !r.isEmpty && !((rustTrim r).getLast? == some ',') then r ++ [',', ' '] else r
      else []
    let r2 := r1 ++ raw
    if is_blank p.after = false then
      let r3 :=
        if !r2.isEmpty && !((rustTrim r2).getLast? == some ',') then r2 ++ [',', ' '] else r2
      r3 ++ rustTrim (p.after.getD [])
    else r2

/-- `MainPresetSettings::apply_negative`. -/
def MainPresetSettings.apply_negative (p : MainPresetSettings) (raw : List Char) : List Char :=
  if is_blank p.uc_replace = false then p.uc_replace.getD []
  else
    let r1 :=
      if is_blank p.uc_before = false then
        let r := rustTrim (p.uc_before.getD [])
        if !r.isEmpty && !((rustTrim r).getLast? == some ',') then r ++ [',', ' '] else r
      else []
    let r2 := r1 ++ raw
    if is_blank p.uc_after = false then
      let r3 :=
        if !r2.isEmpty && !((rustTrim r2).getLast? == some ',') then r2 ++ [',', ' '] else r2
      r3 ++ rustTrim (p.uc_after.getD [])
    else r2

/-- `CharacterPreset` (id, name, description, preview path and timestamps
are storage bookkeeping irrelevant to the rewrite rules and omitted). -/
structure CharacterPreset where
  before : Option (List Char)
  after : Option (List Char)
  replace : Option (List Char)
  uc_before : Option (List Char)
  uc_after : Option (List Char)
  uc_replace : Option (List Char)
  deriving Repr, DecidableEq

/-- `CharacterPreset::apply` (single-space separator variant). -/
def CharacterPreset.apply (p : CharacterPreset) (raw : List Char) : List Char :=
  if is_blank p.replace = false then p.replace.getD []
  else
    let r1 :=
      if is_blank p.before = false then
        let r := rustTrim (p.before.getD [])
        if !r.isEmpty && !(r.getLast? == some ' ') then r ++ [' '] else r
      else []
    let r2 := r1 ++ raw
    if is_blank p.after = false then
      let r3 := if !r2.isEmpty && !(r2.getLast? == some ' ') then r2 ++ [' '] else r2
      r3 ++ rustTrim (p.after.getD [])
    else r2

/-- `CharacterPreset::apply_uc` (comma-and-space separator variant). -/
def CharacterPreset.apply_uc (p : CharacterPreset) (raw : List Char) : List Char :=
  if is_blank p.uc_replace = false then p.uc_replace.getD []
  else
    let r1 :=
      if is_blank p.uc_before = false then
        let r := rustTrim (p.uc_before.getD [])
        if !r.isEmpty && !(r.getLast? == some ' ') && !(r.getLast? == some ',')
          then r ++ [',', ' '] else r
      else []
    let r2 := r1 ++ raw
    if is_blank p.uc_after = false then
      let r3 :=
        if !r2.isEmpty && !(r2.getLast? == some ' ') && !(r2.getLast? == some ',')
          then r2 ++ [',', ' '] else r2
      r3 ++ rustTrim (p.uc_after.getD [])
    else r2

/-- The resolver-relevant error cases of the core crate's `anyhow` errors
("invalid snippet name" / "snippet not found: {name}"). -/
inductive CoreErr where
  | invalidSnippetName
  | snippetNotFound (name : List Char)
  deriving Repr, DecidableEq

/-- `validate_snippet_name` (`lib.rs`): rejects a name containing any of
`< > , ' ' { } ( ) [ ]`, or an empty name. -/
def validate_snippet_name (name : List Char) : Except CoreErr Unit :=
  if name.any (fun c => c ∈ ['<', '>', ',', ' ', '{', '}', '(', ')', '[', ']']) || name.isEmpty
  then Except.error CoreErr.invalidSnippetName
  else Except.ok ()

/-- `Snippet` (the generated id, timestamps, tags, description and preview
path are storage bookkeeping irrelevant to the claims and omitted). -/
structure Snippet where
  name : List Char
  category : List Char
  content : List Char
  deriving Repr, DecidableEq

/-- `Snippet::new`: validates the name, then builds the record. -/
def Snippet.new (name category content : List Char) : Except CoreErr Snippet :=
  (validate_snippet_name name).map (fun _ => ⟨name, category, content⟩)

/-- The inner token-collection loop of `SnippetResolver::expand`: after a
`<`, consume characters up to and including the next `>` (the `>` is not
part of the token); with no `>`, the whole remainder becomes the token. -/
def collectToken : List Char → List Char × List Char
  | [] => ([], [])
  | c :: rest =>
    if c == '>' then ([], rest)
    else
      let p := collectToken rest
      (c :: p.1, p.2)

/-- The remainder left by `collectToken` is no longer than the input. -/
theorem collectToken_len : ∀ l : List Char, (collectToken l).2.length ≤ l.length := by
  intro l
  induction l with
  | nil => simp [collectToken]
  | cons c rest ih =>
    rw [collectToken]
    split
    · simp
    · simpa using Nat.le_succ_of_le ih

/-- `SnippetResolver::expand`; the storage collaborator is abstracted as the
`lookup` function (`get_snippet_by_name`, returning the snippet `content`). -/
def SnippetResolver.expand (lookup : List Char → Option (List Char)) :
    List Char → Except CoreErr (List Char)
  | [] => Except.ok []
  | c :: rest =>
    if c = '<' then
      if snipMarker.isPrefixOf (collectToken rest).1 then
        match validate_snippet_name ((collectToken rest).1.drop 8) with
        | Except.error e => Except.error e
        | Except.ok _ =>
          match lookup ((collectToken rest).1.drop 8) with
          | some content =>
              (SnippetResolver.expand lookup (collectToken rest).2).map
                (fun out => content ++ out)
          | none => Except.error (CoreErr.snippetNotFound ((collectToken rest).1.drop 8))
      else
        (SnippetResolver.expand lookup (collectToken rest).2).map
          (fun out => '<' :: (collectToken rest).1 ++ '>' :: out)
    else
      (SnippetResolver.expand lookup rest).map (fun out => c :: out)
termination_by l => l.length
decreasing_by
  · simp only [List.length_cons]
    exact Nat.lt_succ_of_le (collectToken_len _)
  · simp only [List.length_cons]
    exact Nat.lt_succ_of_le (collectToken_len _)
  · simp only [List.length_cons]
    omega

/-- `CharacterSlotSettings` (preset ids abstracted to `Nat`). -/
structure CharacterSlotSettings where
  prompt : List Char
  uc : List Char
  enabled : Bool
  preset_id : Option Nat
  deriving Repr, DecidableEq

/-- `ProcessedCharacterPrompt`. -/
structure ProcessedCharacterPrompt where
  after_preset : List Char
  final_prompt : List Char
  uc_after_preset : List Char
  final_uc : List Char
  enabled : Bool
  deriving Repr, DecidableEq

/-- `DryRunResult`. -/
structure DryRunResult where
  raw_positive : List Char
  positive_after_preset : List Char
  final_positive : List Char
  raw_negative : List Char
  negative_after_preset : List Char
  final_negative : List Char
  character_prompts : List ProcessedCharacterPrompt
  deriving Repr, DecidableEq

/-- The body of the character-slot loop in `PromptProcessor::dry_run`
(`none` when the slot is skipped; a missing preset is tolerated). -/
def processSlot (lookup : List Char → Option (List Char))
    (plookup : Nat → Option CharacterPreset) (slot : CharacterSlotSettings) :
    Except CoreErr (Option ProcessedCharacterPrompt) :=
  if slot.enabled = false then Except.ok none
  else if (rustTrim slot.prompt).isEmpty && slot.preset_id.isNone then Except.ok none
  else
    let pair :=
      match slot.preset_id with
      | some pid =>
        match plookup pid with
        | some preset => (preset.apply slot.prompt, preset.apply_uc slot.uc)
        | none => (slot.prompt, slot.uc)
      | none => (slot.prompt, slot.uc)
    match SnippetResolver.expand lookup pair.1 with
    | Except.error e => Except.error e
    | Except.ok fp =>
      match SnippetResolver.expand lookup pair.2 with
      | Except.error e => Except.error e
      | Except.ok fu => Except.ok (some ⟨pair.1, fp, pair.2, fu, true⟩)

/-- The character-slot loop of `PromptProcessor::dry_run`. -/
def processSlots (lookup : List Char → Option (List Char))
    (plookup : Nat → Option CharacterPreset) :
    List CharacterSlotSettings → Except CoreErr (List ProcessedCharacterPrompt)
  | [] => Except.ok []
  | s :: rest =>
    match processSlot lookup plookup s with
    | Except.error e => Except.error e
    | Except.ok o =>
      match processSlots lookup plookup rest with
      | Except.error e => Except.error e
      | Except.ok tail => Except.ok (match o with | some p => p :: tail | none => tail)

/-- `PromptProcessor::dry_run`; storage is the two lookup functions. -/
def PromptProcessor.dry_run (lookup : List Char → Option (List Char))
    (plookup : Nat → Option CharacterPreset)
    (raw_positive raw_negative : List Char) (main_preset : MainPresetSettings)
    (character_slots : List CharacterSlotSettings) : Except CoreErr DryRunResult :=
  let positive_after_preset := main_preset.apply_positive raw_positive
  let negative_after_preset := main_preset.apply_negative raw_negative
  match SnippetResolver.expand lookup positive_after_preset with
  | Except.error e => Except.error e
  | Except.ok final_positive =>
    match SnippetResolver.expand lookup negative_after_preset with
    | Except.error e => Except.error e
    | Except.ok final_negative =>
      match processSlots lookup plookup character_slots with
      | Except.error e => Except.error e
      | Except.ok processed =>
        Except.ok ⟨raw_positive, positive_after_preset, final_positive,
                   raw_negative, negative_after_preset, final_negative, processed⟩

/-- Every character occupies at least one byte. -/
theorem csize_pos (c : Char) : 0 < csize c := by
  unfold csize
  repeat' split
  all_goals omega

/-- Byte length distributes over append. -/
theorem utf8Len_append : ∀ (a b : List Char), utf8Len (a ++ b) = utf8Len a + utf8Len b := by
  intro a b
  induction a with
  | nil => simp [utf8Len]
  | cons c a' ih => simp [utf8Len, ih]; omega

/-- Dropping the bytes of a prefix leaves the suffix. -/
theorem utf8Drop_append : ∀ (a b : List Char), utf8Drop (a ++ b) (utf8Len a) = b := by
  intro a
  induction a with
  | nil =>
    intro b
    cases b <;> simp [utf8Drop, utf8Len]
  | cons c a' ih =>
    intro b
    have hc := csize_pos c
    simp only [List.cons_append, utf8Len, utf8Drop]
    rw [if_neg (by omega), Nat.add_sub_cancel_left]
    exact ih b

/-- Taking the bytes of a prefix recovers the prefix. -/
theorem utf8Take_append : ∀ (a b : List Char), utf8Take (a ++ b) (utf8Len a) = a := by
  intro a
  induction a with
  | nil =>
    intro b
    cases b <;> simp [utf8Take, utf8Len]
  | cons c a' ih =>
    intro b
    have hc := csize_pos c
    simp only [List.cons_append, utf8Take, utf8Len]
    rw [if_neg (by omega), Nat.add_sub_cancel_left]
    simp [ih b]

/-- The source substring named by a token's byte span. -/
def extractSpan (s : List Char) (t : Token) : List Char :=
  utf8Take (utf8Drop s t.start) (t.stop - t.start)

/-- Concatenation of the source substrings named by a token list's spans. -/
def spanConcat (s : List Char) (ts : List Token) : List Char :=
  (ts.map (extractSpan s)).flatten

theorem spanConcat_nil (s : List Char) : spanConcat s [] = [] := rfl

theorem spanConcat_append (s : List Char) (a b : List Token) :
    spanConcat s (a ++ b) = spanConcat s a ++ spanConcat s b := by
  simp [spanConcat]

/-- Reading the byte span `[utf8Len pre, utf8Len pre + utf8Len chunk)` out of
`pre ++ chunk ++ post` gives back `chunk`. -/
theorem extract_mid (pre chunk post : List Char) :
    utf8Take (utf8Drop (pre ++ (chunk ++ post)) (utf8Len pre)) (utf8Len chunk) = chunk := by
  rw [utf8Drop_append, utf8Take_append]

/-- `scanNumPart` splits its input. -/
theorem scanNumPart_eq : ∀ (l : List Char) (d : Bool),
    (scanNumPart l d).1 ++ (scanNumPart l d).2 = l := by
  intro l
  induction l with
  | nil => intro d; simp [scanNumPart]
  | cons c rest ih =>
    intro d
    rw [scanNumPart]
    split
    · simp [ih d]
    · split
      · simp [ih true]
      · simp

/-- `tryParseWeightNum` consumes the sign it was given plus its input. -/
theorem tryParseWeightNum_eq (neg : Bool) (l1 : List Char) (q : ℚ × List Char × List Char)
    (h : tryParseWeightNum neg l1 = some q) :
    q.2.1 ++ q.2.2 = (if neg then ['-'] else []) ++ l1 := by
  have hs := scanNumPart_eq l1 false
  cases neg with
  | true =>
    simp only [tryParseWeightNum, if_true] at h
    split at h
    · split at h
      · rename_i heq
        injection h with h'
        subst h'
        rw [heq] at hs
        conv_rhs => rw [← hs]
        simp
      · exact absurd h (by simp)
    · exact absurd h (by simp)
  | false =>
    simp only [tryParseWeightNum, if_false] at h
    split at h
    · split at h
      · rename_i heq
        injection h with h'
        subst h'
        rw [heq] at hs
        conv_rhs => rw [← hs]
        simp
      · exact absurd h (by simp)
    · exact absurd h (by simp)

/-- `tryParseWeightStart` splits its input into consumed plus rest. -/
theorem tryParseWeightStart_eq (l : List Char) (q : ℚ × List Char × List Char)
    (h : tryParseWeightStart l = some q) : q.2.1 ++ q.2.2 = l := by
  unfold tryParseWeightStart at h
  split at h
  · have := tryParseWeightNum_eq true _ _ h
    simpa using this
  · have := tryParseWeightNum_eq false _ _ h
    simpa using this

/-- `scanSnippetName` splits its input at the terminating `>`. -/
theorem scanSnippetName_eq : ∀ (l : List Char) (p : List Char × List Char),
    scanSnippetName l = some p → l = p.1 ++ '>' :: p.2 := by
  intro l
  induction l with
  | nil => intro p h; simp [scanSnippetName] at h
  | cons c rest ih =>
    intro p h
    rw [scanSnippetName] at h
    split at h
    · rename_i hgt
      injection h with h'
      subst h'
      simp only [beq_iff_eq] at hgt
      subst hgt
      simp
    · split at h
      · exact absurd h (by simp)
      · rw [Option.map_eq_some'] at h
        obtain ⟨p', hp, hfp⟩ := h
        have hp' : scanSnippetName rest = some (p'.1, p'.2) := by rw [Prod.mk.eta]; exact hp
        have hr := ih (p'.1, p'.2) hp'
        subst hfp
        simp [hr]

/-- A successful `isPrefixOf` splits the list after the matched head. -/
theorem isPrefixOf_eq_append : ∀ (p l : List Char), p.isPrefixOf l = true →
    l = p ++ l.drop p.length := by
  intro p
  induction p with
  | nil => intro l _; simp
  | cons a p' ih =>
    intro l h
    cases l with
    | nil => simp [List.isPrefixOf] at h
    | cons b l' =>
      simp only [List.isPrefixOf, Bool.and_eq_true, beq_iff_eq] at h
      obtain ⟨hab, h2⟩ := h
      subst hab
      simp only [List.cons_append, List.length_cons, List.drop_succ_cons]
      rw [← ih l' h2]

/-- `isPrefixOf` holds of a list against itself followed by anything. -/
theorem isPrefixOf_self_append : ∀ (p t : List Char), p.isPrefixOf (p ++ t) = true := by
  intro p t
  induction p with
  | nil => simp [List.isPrefixOf]
  | cons a p' ih => simp [List.isPrefixOf, ih]

/-- `tryParseSnippetRef` splits its input into consumed plus rest. -/
theorem tryParseSnippetRef_eq (l : List Char) (q : List Char × List Char × List Char)
    (h : tryParseSnippetRef l = some q) : q.2.1 ++ q.2.2 = l := by
  unfold tryParseSnippetRef at h
  split at h
  · rename_i hpre
    have hl := isPrefixOf_eq_append snippetRefMarker l hpre
    rw [show snippetRefMarker.length = 9 from rfl] at hl
    split at h
    · rename_i p hp
      injection h with h'
      subst h'
      have hsn := scanSnippetName_eq _ p hp
      conv_rhs => rw [hl, hsn]
      simp
    · exact absurd h (by simp)
  · exact absurd h (by simp)

/-- `scanWsRun` splits its input. -/
theorem scanWsRun_eq : ∀ l : List Char, (scanWsRun l).1 ++ (scanWsRun l).2 = l := by
  intro l
  induction l with
  | nil => simp [scanWsRun]
  | cons c rest ih =>
    rw [scanWsRun]
    split
    · simp [ih]
    · simp

/-- `scanText` splits its input. -/
theorem scanText_eq : ∀ l : List Char, (scanText l).1 ++ (scanText l).2 = l := by
  intro l
  induction l with
  | nil => simp [scanText]
  | cons c rest ih =>
    rw [scanText]
    split
    · simp
    · simp [ih]

/-- `commentScan` success splits the current character plus rest into the
consumed comment (both delimiters and content) and the remainder. -/
theorem commentScan_eq (c : Char) (rest : List Char) (p : List Char × List Char)
    (h : commentScan c rest = some p) :
    c :: rest = ('/' :: '/' :: p.1 ++ ['/', '/']) ++ p.2 := by
  unfold commentScan at h
  split at h
  · rename_i hc
    obtain ⟨hc1, hc2⟩ := hc
    subst hc1
    have := scanCommentBody_eq rest.tail p.1 p.2 (by rw [h])
    cases rest with
    | nil => simp at hc2
    | cons r0 rt =>
      simp only [List.head?_cons, Option.some.injEq] at hc2
      subst hc2
      simp only [List.tail_cons] at this
      rw [this]
      simp
  · exact absurd h (by simp)

theorem csize_slash : csize '/' = 1 := by decide

theorem csize_nl : csize '\n' = 1 := by decide

theorem csize_cr : csize '\r' = 1 := by decide

theorem csize_colon : csize ':' = 1 := by decide

theorem csize_lbrace : csize '{' = 1 := by decide

theorem csize_rbrace : csize '}' = 1 := by decide

theorem csize_lbracket : csize '[' = 1 := by decide

theorem csize_rbracket : csize ']' = 1 := by decide

theorem csize_comma : csize ',' = 1 := by decide

/-- Soundness shape of one tokenizer step at byte offset `b` on input
`c :: rest`: the consumed characters plus the remaining input reassemble the
input, and the emitted token (when present) spans exactly the consumed bytes
starting at `b`. -/
def StepSound (b : Nat) (c : Char) (rest : List Char) (o : StepOut) : Prop :=
  o.consumed ++ o.remaining = c :: rest ∧
  (o.emitted = [] ∧ o.consumed = [] ∨
   ∃ t, o.emitted = [t] ∧ t.start = b ∧ t.stop = b + utf8Len o.consumed)

theorem stepText_sound (b : Nat) (c : Char) (rest : List Char) (br bk : Int) (cw : Option ℚ) :
    StepSound b c rest (stepText b c rest br bk cw) := by
  unfold StepSound stepText
  dsimp only
  refine ⟨scanText_eq (c :: rest), ?_⟩
  by_cases he : (scanText (c :: rest)).1.isEmpty = true
  · rw [if_pos he]
    exact Or.inl ⟨rfl, by simpa using he⟩
  · rw [if_neg he]
    exact Or.inr ⟨_, rfl, rfl, rfl⟩

theorem stepSnippet_sound (b : Nat) (c : Char) (rest : List Char) (br bk : Int) (cw : Option ℚ) :
    StepSound b c rest (stepSnippet b c rest br bk cw) := by
  unfold stepSnippet
  split
  · rename_i q hq
    have hq' : tryParseSnippetRef (c :: rest) = some q := by
      by_cases hg : c = '<'
      · rwa [if_pos hg] at hq
      · rw [if_neg hg] at hq; exact absurd hq (by simp)
    exact ⟨tryParseSnippetRef_eq _ _ hq', Or.inr ⟨_, rfl, rfl, rfl⟩⟩
  · exact stepText_sound b c rest br bk cw

theorem stepWs_sound (b : Nat) (c : Char) (rest : List Char) (br bk : Int) (cw : Option ℚ) :
    StepSound b c rest (stepWs b c rest br bk cw) := by
  unfold stepWs
  split
  · refine ⟨?_, Or.inr ⟨_, rfl, rfl, rfl⟩⟩
    simp [scanWsRun_eq rest]
  · exact stepSnippet_sound b c rest br bk cw

theorem stepStructural_sound (b : Nat) (c : Char) (rest : List Char) (br bk : Int)
    (cw : Option ℚ) : StepSound b c rest (stepStructural b c rest br bk cw) := by
  unfold stepStructural
  split
  · -- weight end
    rename_i hwe
    obtain ⟨hc1, hc2, _⟩ := hwe
    subst hc1
    constructor
    · cases rest with
      | nil => simp at hc2
      | cons r0 rt =>
        simp only [List.head?_cons, Option.some.injEq] at hc2
        subst hc2
        simp
    · exact Or.inr ⟨_, rfl, rfl, by simp [Token.stop, utf8Len, csize_colon]⟩
  · split
    · rename_i hb
      subst hb
      exact ⟨rfl, Or.inr ⟨_, rfl, rfl, by simp [Token.stop, utf8Len, csize_lbrace]⟩⟩
    · split
      · rename_i hb
        subst hb
        exact ⟨rfl, Or.inr ⟨_, rfl, rfl, by simp [Token.stop, utf8Len, csize_rbrace]⟩⟩
      · split
        · rename_i hb
          subst hb
          exact ⟨rfl, Or.inr ⟨_, rfl, rfl, by simp [Token.stop, utf8Len, csize_lbracket]⟩⟩
        · split
          · rename_i hb
            subst hb
            exact ⟨rfl, Or.inr ⟨_, rfl, rfl, by simp [Token.stop, utf8Len, csize_rbracket]⟩⟩
          · split
            · rename_i hb
              subst hb
              exact ⟨rfl, Or.inr ⟨_, rfl, rfl, by simp [Token.stop, utf8Len, csize_comma]⟩⟩
            · exact stepWs_sound b c rest br bk cw

theorem stepWeight_sound (b : Nat) (c : Char) (rest : List Char) (br bk : Int) (cw : Option ℚ) :
    StepSound b c rest (stepWeight b c rest br bk cw) := by
  unfold stepWeight
  split
  · rename_i q hq
    have hq' : tryParseWeightStart (c :: rest) = some q := by
      by_cases hg : (c.isDigit || c == '-' || c == '.') = true
      · rwa [if_pos hg] at hq
      · rw [if_neg hg] at hq; exact absurd hq (by simp)
    exact ⟨tryParseWeightStart_eq _ _ hq', Or.inr ⟨_, rfl, rfl, rfl⟩⟩
  · exact stepStructural_sound b c rest br bk cw

theorem stepNl_sound (b : Nat) (c : Char) (rest : List Char) (br bk : Int) (cw : Option ℚ) :
    StepSound b c rest (stepNl b c rest br bk cw) := by
  unfold stepNl
  split
  · rename_i hnl
    subst hnl
    exact ⟨rfl, Or.inr ⟨_, rfl, rfl, by simp [Token.stop, utf8Len, csize_nl]⟩⟩
  · split
    · rename_i hcr
      subst hcr
      split
      · exact ⟨rfl, Or.inr ⟨_, rfl, rfl, by simp [Token.stop, utf8Len, csize_cr, csize_nl]⟩⟩
      · exact ⟨rfl, Or.inr ⟨_, rfl, rfl, by simp [Token.stop, utf8Len, csize_cr]⟩⟩
    · exact stepWeight_sound b c rest br bk cw

/-- Soundness of one full tokenizer step. -/
theorem step_sound (b : Nat) (c : Char) (rest : List Char) (br bk : Int) (cw : Option ℚ) :
    StepSound b c rest (step b c rest br bk cw) := by
  unfold step
  split
  · rename_i p hcs
    refine ⟨(commentScan_eq c rest p hcs).symm, Or.inr ⟨_, rfl, rfl, ?_⟩⟩
    simp [Token.stop, utf8Len, utf8Len_append, csize_slash]
    omega
  · exact stepNl_sound b c rest br bk cw

/-- Main losslessness invariant: if the tokenizer returns a result, the
source substrings named by its tokens' spans concatenate to the input.
`pre` is the already-consumed prefix (the current byte offset is its byte
length) and `acc` holds the tokens already emitted for it. -/
theorem parseAux_lossless : ∀ (fuel : Nat) (pre l : List Char) (br bk : Int) (cw : Option ℚ)
    (acc : List Token) (r : ParseResult),
    (∀ post, spanConcat (pre ++ post) acc = pre) →
    parseAux fuel (utf8Len pre) l br bk cw acc = some r →
    spanConcat (pre ++ l) r.tokens = pre ++ l := by
  intro fuel
  induction fuel with
  | zero =>
    intro pre l br bk cw acc r hacc hp
    cases l with
    | nil =>
      rw [parseAux] at hp
      injection hp with hp'
      subst hp'
      simpa using hacc []
    | cons c rest => simp [parseAux] at hp
  | succ n ih =>
    intro pre l br bk cw acc r hacc hp
    cases l with
    | nil =>
      rw [parseAux] at hp
      injection hp with hp'
      subst hp'
      simpa using hacc []
    | cons c rest =>
      rw [parseAux] at hp
      obtain ⟨hsplit, hem⟩ := step_sound (utf8Len pre) c rest br bk cw
      rw [show utf8Len pre + utf8Len (step (utf8Len pre) c rest br bk cw).consumed
            = utf8Len (pre ++ (step (utf8Len pre) c rest br bk cw).consumed) from
            (utf8Len_append _ _).symm] at hp
      have hacc' : ∀ post,
          spanConcat ((pre ++ (step (utf8Len pre) c rest br bk cw).consumed) ++ post)
            (acc ++ (step (utf8Len pre) c rest br bk cw).emitted)
          = pre ++ (step (utf8Len pre) c rest br bk cw).consumed := by
        intro post
        rw [spanConcat_append]
        rcases hem with ⟨he, hc⟩ | ⟨t, he, hstart, hstop⟩
        · rw [he, hc]
          simp only [spanConcat_nil, List.append_nil]
          exact hacc post
        · rw [he]
          have h1 : spanConcat ((pre ++ (step (utf8Len pre) c rest br bk cw).consumed) ++ post)
              acc = pre := by
            rw [List.append_assoc]
            exact hacc _
          have h2 : spanConcat ((pre ++ (step (utf8Len pre) c rest br bk cw).consumed) ++ post)
              [t] = (step (utf8Len pre) c rest br bk cw).consumed := by
            simp only [spanConcat, List.map_cons, List.map_nil, List.flatten,
              List.append_nil, extractSpan, hstart, hstop, Nat.add_sub_cancel_left]
            rw [List.append_assoc]
            exact extract_mid pre _ post
          rw [h1, h2]
      have hres := ih (pre ++ (step (utf8Len pre) c rest br bk cw).consumed)
        (step (utf8Len pre) c rest br bk cw).remaining
        (step (utf8Len pre) c rest br bk cw).br
        (step (utf8Len pre) c rest br bk cw).bk
        (step (utf8Len pre) c rest br bk cw).cw
        (acc ++ (step (utf8Len pre) c rest br bk cw).emitted) r hacc' hp
      rw [List.append_assoc, hsplit] at hres
      exact hres

/-- On `//` (an unterminated comment opener) one tokenizer step consumes
nothing, emits nothing, and leaves the state unchanged: the empty-text case. -/
theorem step_stuck_on_double_slash (b : Nat) (br bk : Int) (cw : Option ℚ) :
    step b '/' ['/'] br bk cw = ⟨[], ['/', '/'], [], br, bk, cw⟩ := rfl

/-- C1: REFUTED (code bug).  The claim states that `PromptParser::parse`
terminates on every input, including an unterminated `//` comment opener.
In the source, an unterminated `//` falls through to the text-accumulation
loop, which breaks immediately at the `//` pair without consuming a
character, so the outer loop repeats the identical state forever.  Here:
on input `"//"` the fuelled loop returns `none` for EVERY fuel, i.e. the
Rust loop never terminates. -/
theorem c1_parse_diverges_on_unclosed_comment :
    (∀ (fuel b : Nat) (br bk : Int) (cw : Option ℚ) (acc : List Token),
      parseAux fuel b ['/', '/'] br bk cw acc = none) ∧
    PromptParser.parseString "//" = none := by
  constructor
  · intro fuel
    induction fuel with
    | zero => intro b br bk cw acc; rfl
    | succ n ih =>
      intro b br bk cw acc
      rw [parseAux]
      simp only [step_stuck_on_double_slash]
      simpa [utf8Len] using ih b br bk cw acc
  · decide

/-- C2, counterexample: the claim quantifies over every input string, but on
`"<"` (a `<` that does not begin a valid snippet reference) the tokenizer
never returns at all — the text-accumulation loop consumes nothing and the
scan loops forever — so no token sequence exists whose spans reconstruct the
input. -/
theorem c2_counterexample_tokenize_diverges : PromptParser.parseString "<" = none := by decide

/-- C2 (amended): for every input on which the tokenizer returns a result,
concatenating the source substrings named by the `[start, end)` span of
every token, in token order, yields exactly the input (lossless
tokenization, comments included). -/
theorem c2_tokenize_lossless (s : List Char) (r : ParseResult)
    (h : PromptParser.parse s = some r) : spanConcat s r.tokens = s := by
  have h0 : utf8Len ([] : List Char) = 0 := rfl
  have := parseAux_lossless (s.length + 1) [] s 0 0 none [] r
    (fun post => rfl) (by rw [h0]; exact h)
  simpa using this

theorem c2_tokenize_lossless_witness :
    PromptParser.parse ['a', ',', 'b'] =
      some ⟨[.text ['a'] 0 1 1, .comma 1 2, .text ['b'] 2 3 1], 0, 0, false⟩ ∧
    spanConcat ['a', ',', 'b']
      (ParseResult.tokens ⟨[.text ['a'] 0 1 1, .comma 1 2, .text ['b'] 2 3 1], 0, 0, false⟩)
      = ['a', ',', 'b'] :=
  ⟨by decide, c2_tokenize_lossless ['a', ',', 'b'] _ (by decide)⟩

/-- C3: REFUTED (code bug).  On `"a,\tb"` the formatter pushes a space
because the whitespace token follows a comma and does not start with a
space, and then pushes ANOTHER space as the collapsed whitespace, producing
`"a,  b"` (two spaces — violating §4.4's "exactly one space after a comma");
formatting that output yields `"a, b"`, so `format (format s) ≠ format s`. -/
theorem c3_format_not_idempotent :
    PromptParser.formatString "a,\tb" = some ['a', ',', ' ', ' ', 'b'] ∧
    PromptParser.formatString "a,  b" = some ['a', ',', ' ', 'b'] ∧
    (['a', ',', ' ', ' ', 'b'] : List Char) ≠ ['a', ',', ' ', 'b'] :=
  ⟨by decide, by decide, by decide⟩

/-- C4, counterexample: tokenizing `"a b"` DOES yield a single Text token
with value `"a b"` — the text-accumulation loop does not stop at plain
(non-newline) whitespace, so a would-be Whitespace start is absorbed into
the Text value. -/
theorem c4_counterexample_text_absorbs_space :
    PromptParser.parseString "a b" =
      some ⟨[.text ['a', ' ', 'b'] 0 3 1], 0, 0, false⟩ := by decide

/-- Characters collected by the text-accumulation loop are never among the
single-character breakers. -/
theorem scanText_no_break : ∀ (l : List Char) (c : Char),
    c ∈ (scanText l).1 → ¬ c ∈ breakChars := by
  intro l
  induction l with
  | nil => intro c hc; simp [scanText] at hc
  | cons c0 rest ih =>
    intro c hc
    rw [scanText] at hc
    split at hc
    · simp at hc
    · rename_i hb
      simp only [List.mem_cons] at hc
      rcases hc with h | h
      · subst h
        intro hmem
        apply hb
        simp only [breakChars, List.mem_cons, List.not_mem_nil, or_false] at hmem
        rcases hmem with rfl | rfl | rfl | rfl | rfl | rfl | rfl | rfl <;>
          simp [textBreak]
      · exact ih c h

/-- C4 (amended): the Text-accumulation loop stops only at the positions
matching the comment, newline, weight-start, weight-end, brace, bracket,
comma or snippet rules — NOT at non-newline whitespace (rule 7).  A Text
value therefore never contains a structural single character, but it may
contain spaces: tokenizing `"a b"` yields the single Text token `"a b"`. -/
theorem c4_text_break_characters (l : List Char) (c : Char)
    (hc : c ∈ (scanText l).1) :
    ¬ c ∈ breakChars ∧ (scanText l).1 ++ (scanText l).2 = l ∧
    PromptParser.parseString "a b" = some ⟨[.text ['a', ' ', 'b'] 0 3 1], 0, 0, false⟩ :=
  ⟨scanText_no_break l c hc, scanText_eq l, by decide⟩

theorem c4_text_break_characters_witness :
    (' ' ∈ (scanText ['a', ' ', 'b']).1) ∧
    (¬ ' ' ∈ breakChars ∧
     (scanText ['a', ' ', 'b']).1 ++ (scanText ['a', ' ', 'b']).2 = ['a', ' ', 'b'] ∧
     PromptParser.parseString "a b" = some ⟨[.text ['a', ' ', 'b'] 0 3 1], 0, 0, false⟩) :=
  ⟨by decide, c4_text_break_characters ['a', ' ', 'b'] ' ' (by decide)⟩

/-- The `BraceOpen` tokens emitted for a run of `n` opening braces starting
at byte offset `b` and depth `br`. -/
def braceOpens : Nat → Int → Nat → List Token
  | _, _, 0 => []
  | b, br, n + 1 => .braceOpen b (b + 1) (br + 1) :: braceOpens (b + 1) (br + 1) n

/-- The `BracketOpen` tokens emitted for a run of `n` opening brackets. -/
def bracketOpens : Nat → Int → Nat → List Token
  | _, _, 0 => []
  | b, bk, n + 1 => .bracketOpen b (b + 1) (bk + 1) :: bracketOpens (b + 1) (bk + 1) n

/-- The `BraceClose` tokens emitted for a run of `n` closing braces starting
at depth `k + n` (ending at depth `k`). -/
def braceCloses : Nat → Nat → Nat → List Token
  | _, _, 0 => []
  | b, k, n + 1 => .braceClose b (b + 1) ((k + n : ℕ) : ℤ) :: braceCloses (b + 1) k n

/-- The `BracketClose` tokens emitted for a run of `n` closing brackets
starting at depth `k + n`. -/
def bracketCloses : Nat → Nat → Nat → List Token
  | _, _, 0 => []
  | b, k, n + 1 => .bracketClose b (b + 1) ((k + n : ℕ) : ℤ) :: bracketCloses (b + 1) k n

theorem step_on_lbrace (b : Nat) (rest : List Char) (br bk : Int) (cw : Option ℚ) :
    step b '{' rest br bk cw
      = ⟨['{'], rest, [.braceOpen b (b + 1) (br + 1)], br + 1, bk, cw⟩ := rfl

theorem step_on_rbrace (b : Nat) (rest : List Char) (br bk : Int) (cw : Option ℚ) :
    step b '}' rest br bk cw
      = ⟨['}'], rest, [.braceClose b (b + 1) (max (br - 1) 0)], max (br - 1) 0, bk, cw⟩ := rfl

theorem step_on_lbracket (b : Nat) (rest : List Char) (br bk : Int) (cw : Option ℚ) :
    step b '[' rest br bk cw
      = ⟨['['], rest, [.bracketOpen b (b + 1) (bk + 1)], br, bk + 1, cw⟩ := rfl

theorem step_on_rbracket (b : Nat) (rest : List Char) (br bk : Int) (cw : Option ℚ) :
    step b ']' rest br bk cw
      = ⟨[']'], rest, [.bracketClose b (b + 1) (max (bk - 1) 0)], br, max (bk - 1) 0, cw⟩ := rfl

theorem step_on_a (b : Nat) (rest : List Char) (br bk : Int) (cw : Option ℚ) :
    step b 'a' rest br bk cw
      = ⟨'a' :: (scanText rest).1, (scanText rest).2,
         [.text ('a' :: (scanText rest).1) b (b + utf8Len ('a' :: (scanText rest).1))
           (PromptParser.calculate_weight br bk cw)], br, bk, cw⟩ := rfl

theorem scanText_replicate_rbrace : ∀ n : ℕ,
    scanText (List.replicate n '}') = ([], List.replicate n '}') := by
  intro n
  cases n with
  | zero => rfl
  | succ m => rfl

theorem scanText_replicate_rbracket : ∀ n : ℕ,
    scanText (List.replicate n ']') = ([], List.replicate n ']') := by
  intro n
  cases n with
  | zero => rfl
  | succ m => rfl

/-- Scanning a run of `n` opening braces emits `n` `BraceOpen` tokens and
raises the brace depth by `n`. -/
theorem parseAux_brace_opens : ∀ (n fuel b : Nat) (br bk : Int) (cw : Option ℚ)
    (acc : List Token) (l : List Char),
    parseAux (n + fuel) b (List.replicate n '{' ++ l) br bk cw acc
    = parseAux fuel (b + n) l (br + n) bk cw (acc ++ braceOpens b br n) := by
  intro n
  induction n with
  | zero =>
    intro fuel b br bk cw acc l
    simp [braceOpens]
  | succ m ih =>
    intro fuel b br bk cw acc l
    rw [show List.replicate (m + 1) '{' ++ l = '{' :: (List.replicate m '{' ++ l) from by
      simp [List.replicate_succ]]
    rw [show m + 1 + fuel = (m + fuel) + 1 from by omega]
    rw [parseAux]
    simp only [step_on_lbrace, utf8Len, csize_lbrace]
    rw [ih]
    congr 1
    · omega
    · push_cast
      ring
    · simp [braceOpens, List.append_assoc]

/-- Scanning a run of `n` opening brackets. -/
theorem parseAux_bracket_opens : ∀ (n fuel b : Nat) (br bk : Int) (cw : Option ℚ)
    (acc : List Token) (l : List Char),
    parseAux (n + fuel) b (List.replicate n '[' ++ l) br bk cw acc
    = parseAux fuel (b + n) l br (bk + n) cw (acc ++ bracketOpens b bk n) := by
  intro n
  induction n with
  | zero =>
    intro fuel b br bk cw acc l
    simp [bracketOpens]
  | succ m ih =>
    intro fuel b br bk cw acc l
    rw [show List.replicate (m + 1) '[' ++ l = '[' :: (List.replicate m '[' ++ l) from by
      simp [List.replicate_succ]]
    rw [show m + 1 + fuel = (m + fuel) + 1 from by omega]
    rw [parseAux]
    simp only [step_on_lbracket, utf8Len, csize_lbracket]
    rw [ih]
    congr 1
    · omega
    · push_cast
      ring
    · simp [bracketOpens, List.append_assoc]

/-- Scanning a run of `n` closing braces from depth `k + n` emits `n`
`BraceClose` tokens and lowers the brace depth to `k`. -/
theorem parseAux_brace_closes : ∀ (n fuel b k : Nat) (bk : Int) (cw : Option ℚ)
    (acc : List Token) (l : List Char),
    parseAux (n + fuel) b (List.replicate n '}' ++ l) ((k + n : ℕ) : ℤ) bk cw acc
    = parseAux fuel (b + n) l (k : ℤ) bk cw (acc ++ braceCloses b k n) := by
  intro n
  induction n with
  | zero =>
    intro fuel b k bk cw acc l
    simp [braceCloses]
  | succ m ih =>
    intro fuel b k bk cw acc l
    rw [show List.replicate (m + 1) '}' ++ l = '}' :: (List.replicate m '}' ++ l) from by
      simp [List.replicate_succ]]
    rw [show m + 1 + fuel = (m + fuel) + 1 from by omega]
    rw [parseAux]
    simp only [step_on_rbrace, utf8Len, csize_rbrace]
    rw [show max (((k + (m + 1) : ℕ) : ℤ) - 1) 0 = ((k + m : ℕ) : ℤ) from by
      push_cast; omega]
    rw [ih]
    congr 1
    · omega
    · simp [braceCloses, List.append_assoc]

/-- Scanning a run of `n` closing brackets from depth `k + n`. -/
theorem parseAux_bracket_closes : ∀ (n fuel b k : Nat) (br : Int) (cw : Option ℚ)
    (acc : List Token) (l : List Char),
    parseAux (n + fuel) b (List.replicate n ']' ++ l) br ((k + n : ℕ) : ℤ) cw acc
    = parseAux fuel (b + n) l br (k : ℤ) cw (acc ++ bracketCloses b k n) := by
  intro n
  induction n with
  | zero =>
    intro fuel b k br cw acc l
    simp [bracketCloses]
  | succ m ih =>
    intro fuel b k br cw acc l
    rw [show List.replicate (m + 1) ']' ++ l = ']' :: (List.replicate m ']' ++ l) from by
      simp [List.replicate_succ]]
    rw [show m + 1 + fuel = (m + fuel) + 1 from by omega]
    rw [parseAux]
    simp only [step_on_rbracket, utf8Len, csize_rbracket]
    rw [show max (((k + (m + 1) : ℕ) : ℤ) - 1) 0 = ((k + m : ℕ) : ℤ) from by
      push_cast; omega]
    rw [ih]
    congr 1
    · omega
    · simp [bracketCloses, List.append_assoc]

theorem csize_a : csize 'a' = 1 := by decide

theorem calculate_weight_braces (n : ℕ) :
    PromptParser.calculate_weight (n : ℤ) 0 none = WEIGHT_MULTIPLIER ^ n := by
  unfold PromptParser.calculate_weight
  cases n with
  | zero => norm_num
  | succ m =>
    have h : ((m + 1 : ℕ) : ℤ) > 0 := by positivity
    simp [h]
    rw [show ((m : ℤ) + 1) = ((m + 1 : ℕ) : ℤ) from by push_cast; ring]
    rw [zpow_natCast]

theorem calculate_weight_brackets (n : ℕ) :
    PromptParser.calculate_weight 0 (n : ℤ) none = WEIGHT_MULTIPLIER ^ (-(n : ℤ)) := by
  unfold PromptParser.calculate_weight
  cases n with
  | zero => norm_num
  | succ m =>
    have h : ((m + 1 : ℕ) : ℤ) > 0 := by positivity
    simp [h]
    rw [show (-1 + -(m : ℤ)) = -((m : ℤ) + 1) from by ring, zpow_neg]

theorem parse_braces_a (n : ℕ) :
    PromptParser.parse (List.replicate n '{' ++ 'a' :: List.replicate n '}')
    = some ⟨braceOpens 0 0 n ++
        Token.text ['a'] n (n + 1) (WEIGHT_MULTIPLIER ^ n) :: braceCloses (n + 1) 0 n,
        0, 0, false⟩ := by
  unfold PromptParser.parse
  rw [show (List.replicate n '{' ++ 'a' :: List.replicate n '}').length + 1 = n + (n + 2) from by
    simp
    omega]
  rw [parseAux_brace_opens n (n + 2) 0 0 0 none [] ('a' :: List.replicate n '}')]
  simp only [Nat.zero_add, zero_add, List.nil_append]
  rw [show n + 2 = (n + 1) + 1 from rfl]
  rw [parseAux]
  simp only [step_on_a, scanText_replicate_rbrace, utf8Len, csize_a, Nat.add_zero]
  rw [calculate_weight_braces n]
  rw [show List.replicate n '}' = List.replicate n '}' ++ ([] : List Char) from by simp]
  rw [show ((n : ℕ) : ℤ) = ((0 + n : ℕ) : ℤ) from by simp]
  rw [show n + 1 = n + 1 from rfl]
  rw [parseAux_brace_closes n 1 (n + 1) 0 0 none
    (braceOpens 0 0 n ++ [Token.text ['a'] n (n + 1) (WEIGHT_MULTIPLIER ^ n)]) []]
  rw [parseAux]
  simp [List.append_assoc]

theorem parseAux_bracket_closes0 (n fuel b : ℕ) (br : Int) (cw : Option ℚ)
    (acc : List Token) (l : List Char) :
    parseAux (n + fuel) b (List.replicate n ']' ++ l) br (n : ℤ) cw acc
    = parseAux fuel (b + n) l br 0 cw (acc ++ bracketCloses b 0 n) := by
  have h := parseAux_bracket_closes n fuel b 0 br cw acc l
  simpa using h

theorem parse_brackets_a (n : ℕ) :
    PromptParser.parse (List.replicate n '[' ++ 'a' :: List.replicate n ']')
    = some ⟨bracketOpens 0 0 n ++
        Token.text ['a'] n (n + 1) (WEIGHT_MULTIPLIER ^ (-(n : ℤ))) :: bracketCloses (n + 1) 0 n,
        0, 0, false⟩ := by
  unfold PromptParser.parse
  rw [show (List.replicate n '[' ++ 'a' :: List.replicate n ']').length + 1 = n + (n + 2) from by
    simp
    omega]
  rw [parseAux_bracket_opens n (n + 2) 0 0 0 none [] ('a' :: List.replicate n ']')]
  simp only [Nat.zero_add, zero_add, List.nil_append]
  rw [show n + 2 = (n + 1) + 1 from rfl]
  rw [parseAux]
  simp only [step_on_a, scanText_replicate_rbracket, utf8Len, csize_a, Nat.add_zero]
  rw [calculate_weight_brackets n]
  rw [show List.replicate n ']' = List.replicate n ']' ++ ([] : List Char) from by simp]
  rw [parseAux_bracket_closes0 n 1 (n + 1) 0 none
    (bracketOpens 0 0 n ++ [Token.text ['a'] n (n + 1) (WEIGHT_MULTIPLIER ^ (-(n : ℤ)))]) []]
  rw [parseAux]
  simp [List.append_assoc]

/-- C6: CONFIRMED.  For every `n ≥ 0`, the weight function gives `1.05^n`
at brace depth `n` (no brackets, no scalar) and `1.05^(-n)` at bracket
depth `n`; and tokenizing a Text inside `n` nested `{…}` (resp. `[…]`)
produces exactly that weight on the Text token.  `f64` arithmetic is
modelled exactly in `ℚ`, where `WEIGHT_MULTIPLIER = 1.05 = 21/20`. -/
theorem c6_nested_weights (n : ℕ) :
    PromptParser.calculate_weight (n : ℤ) 0 none = (1.05 : ℚ) ^ n ∧
    PromptParser.calculate_weight 0 (n : ℤ) none = (1.05 : ℚ) ^ (-(n : ℤ)) ∧
    (∃ r, PromptParser.parse (List.replicate n '{' ++ 'a' :: List.replicate n '}') = some r ∧
      Token.text ['a'] n (n + 1) ((1.05 : ℚ) ^ n) ∈ r.tokens) ∧
    (∃ r, PromptParser.parse (List.replicate n '[' ++ 'a' :: List.replicate n ']') = some r ∧
      Token.text ['a'] n (n + 1) ((1.05 : ℚ) ^ (-(n : ℤ))) ∈ r.tokens) := by
  have hm : (1.05 : ℚ) = WEIGHT_MULTIPLIER := by norm_num [WEIGHT_MULTIPLIER]
  rw [hm]
  refine ⟨calculate_weight_braces n, calculate_weight_brackets n, ⟨_, parse_braces_a n, ?_⟩,
    ⟨_, parse_brackets_a n, ?_⟩⟩
  · simp
  · simp

/-- The inner comment scan agrees with the spec-side balance scan in
"inside a comment" mode. -/
theorem scanCommentBody_balanced : ∀ (l : List Char),
    (match scanCommentBody l with
     | some p => commentsBalanced p.2 false
     | none => false) = commentsBalanced l true := by
  intro l
  induction l with
  | nil =>
    rw [commentsBalanced]
    rfl
  | cons c rest ih =>
    rw [scanCommentBody, commentsBalanced]
    by_cases hc : c = '/' ∧ rest.head? = some '/'
    · rw [if_pos hc, if_pos hc]
      rfl
    · rw [if_neg hc, if_neg hc]
      rw [← ih]
      cases scanCommentBody rest <;> rfl

/-- `strip_comments` succeeds exactly on comment-balanced inputs. -/
theorem stripCommentsAux_isOk : ∀ (N : ℕ) (l : List Char), l.length ≤ N → ∀ b : Nat,
    (PromptParser.stripCommentsAux l b).isOk = commentsBalanced l false := by
  intro N
  induction N with
  | zero =>
    intro l hl b
    rw [List.length_eq_zero.mp (Nat.le_zero.mp hl)]
    rw [PromptParser.stripCommentsAux, commentsBalanced]
    rfl
  | succ N ihN =>
    intro l hl b
    cases l with
    | nil =>
      rw [PromptParser.stripCommentsAux, commentsBalanced]
      rfl
    | cons c rest =>
      rw [PromptParser.stripCommentsAux, commentsBalanced]
      by_cases hc : c = '/' ∧ rest.head? = some '/'
      · rw [if_pos hc, if_pos hc]
        have hbal := scanCommentBody_balanced rest.tail
        split
        · rename_i p hsc
          rw [hsc] at hbal
          have hlen : p.2.length ≤ N := by
            have h1 := scanCommentBody_len _ _ hsc
            have h2 : rest.tail.length ≤ rest.length := by cases rest <;> simp
            simp only [List.length_cons] at hl
            omega
          rw [ihN p.2 hlen]
          simpa using hbal
        · rename_i hsc
          rw [hsc] at hbal
          exact hbal
      · rw [if_neg hc, if_neg hc]
        have hmap : ∀ (e : Except Nat (List Char)) (f : List Char → List Char),
            (e.map f).isOk = e.isOk := by
          intro e f
          cases e <;> rfl
        rw [hmap]
        exact ihN rest (by simp only [List.length_cons] at hl; omega) _

/-- C5: CONFIRMED.  `strip_comments` returns `Ok` exactly when every `//`
opener has a matching closing `//` (the spec-side scan `commentsBalanced`);
in the `Ok` case each `//…//` span is omitted and everything else passes
through verbatim, and in the `Err` case the error carries the byte offset of
the opening `//` — witnessed on the spec's own examples, where the offset of
the unclosed `//` in `"a //unclosed"` is byte 2. -/
theorem c5_strip_comments :
    (∀ l : List Char, (PromptParser.strip_comments l).isOk = commentsBalanced l false) ∧
    PromptParser.strip_comments "1girl, //note//, blue hair".data
      = Except.ok "1girl, , blue hair".data ∧
    PromptParser.strip_comments "a //unclosed".data = Except.error 2 := by
  refine ⟨fun l => stripCommentsAux_isOk l.length l le_rfl 0, ?_, ?_⟩
  · simp [PromptParser.strip_comments, PromptParser.stripCommentsAux, scanCommentBody, csize,
      Except.map]
  · simp [PromptParser.strip_comments, PromptParser.stripCommentsAux, scanCommentBody, csize,
      Except.map]

/-- With no `>` in the body, `collectToken` collects exactly up to the
terminating `>`. -/
theorem collectToken_closed : ∀ (body rest : List Char), ¬ '>' ∈ body →
    collectToken (body ++ '>' :: rest) = (body, rest) := by
  intro body
  induction body with
  | nil =>
    intro rest _
    rw [List.nil_append, collectToken]
    simp
  | cons c body' ih =>
    intro rest hgt
    rw [List.cons_append, collectToken]
    rw [if_neg (by simp at hgt; simpa using fun h => hgt.1 h.symm)]
    simp only [ih rest (by simp at hgt; exact hgt.2)]

/-- Characters before the first `<` pass through `expand` verbatim. -/
theorem expand_append (lookup : List Char → Option (List Char)) :
    ∀ (pre l : List Char), ¬ '<' ∈ pre →
    SnippetResolver.expand lookup (pre ++ l)
      = (SnippetResolver.expand lookup l).map (fun out => pre ++ out) := by
  intro pre
  induction pre with
  | nil =>
    intro l _
    rw [List.nil_append]
    cases SnippetResolver.expand lookup l <;> rfl
  | cons c pre' ih =>
    intro l hlt
    rw [List.cons_append, SnippetResolver.expand]
    rw [if_neg (by simp at hlt; exact fun h => hlt.1 h.symm)]
    rw [ih l (by simp at hlt; exact hlt.2)]
    cases SnippetResolver.expand lookup l <;> rfl

/-- C7: CONFIRMED.  A `<...>` token whose body does not start with
`snippet:` is emitted back literally, delimiters included, with no error,
and expansion continues after it; in particular
`expand "a <foo> b" = Ok "a <foo> b"` for every lookup. -/
theorem c7_unknown_token_passthrough (lookup : List Char → Option (List Char))
    (body rest : List Char) (hpre : snipMarker.isPrefixOf body = false)
    (hgt : ¬ '>' ∈ body) :
    SnippetResolver.expand lookup ('<' :: (body ++ '>' :: rest))
      = (SnippetResolver.expand lookup rest).map (fun out => '<' :: body ++ '>' :: out) ∧
    SnippetResolver.expand (fun _ => none) "a <foo> b".data = Except.ok "a <foo> b".data := by
  constructor
  · rw [SnippetResolver.expand]
    rw [if_pos rfl]
    rw [collectToken_closed body rest hgt]
    rw [if_neg (by simp [hpre])]
  · simp [SnippetResolver.expand, collectToken, snipMarker, List.isPrefixOf, Except.map]

theorem c7_unknown_token_passthrough_witness :
    (snipMarker.isPrefixOf ['f', 'o', 'o'] = false) ∧ (¬ '>' ∈ ['f', 'o', 'o']) ∧
    (SnippetResolver.expand (fun _ => none) ('<' :: (['f', 'o', 'o'] ++ '>' :: [' ', 'b']))
       = (SnippetResolver.expand (fun _ => none) [' ', 'b']).map
           (fun out => '<' :: ['f', 'o', 'o'] ++ '>' :: out) ∧
     SnippetResolver.expand (fun _ => none) "a <foo> b".data = Except.ok "a <foo> b".data) :=
  ⟨by decide, by decide,
   c7_unknown_token_passthrough (fun _ => none) ['f', 'o', 'o'] [' ', 'b'] (by decide) (by decide)⟩

/-- A name accepted by `validate_snippet_name` contains none of the
forbidden characters. -/
theorem validate_ok_no_forbidden (name : List Char)
    (h : validate_snippet_name name = Except.ok ()) (c : Char) (hc : c ∈ name) :
    ¬ c ∈ ['<', '>', ',', ' ', '{', '}', '(', ')', '[', ']'] := by
  rw [validate_snippet_name] at h
  split at h
  · exact absurd h (by simp)
  · rename_i hcond
    intro hmem
    apply hcond
    simp only [Bool.or_eq_true, List.any_eq_true]
    exact Or.inl ⟨c, hc, by simpa using hmem⟩

/-- Expanding a well-formed `<snippet:NAME>` reference whose lookup fails
yields the snippet-not-found error for that name. -/
theorem expand_ref_not_found (lookup : List Char → Option (List Char)) (name post : List Char)
    (hname : validate_snippet_name name = Except.ok ()) (hlk : lookup name = none) :
    SnippetResolver.expand lookup ('<' :: (snipMarker ++ name ++ '>' :: post))
      = Except.error (CoreErr.snippetNotFound name) := by
  have hgt : ¬ '>' ∈ snipMarker ++ name := by
    intro hmem
    rcases List.mem_append.mp hmem with h | h
    · simp [snipMarker] at h
    · exact validate_ok_no_forbidden name hname '>' h (by simp)
  rw [show snipMarker ++ name ++ '>' :: post = (snipMarker ++ name) ++ '>' :: post from by
    simp [List.append_assoc]]
  rw [SnippetResolver.expand]
  rw [if_pos rfl]
  rw [collectToken_closed (snipMarker ++ name) post hgt]
  rw [if_pos (isPrefixOf_self_append snipMarker name)]
  rw [show (snipMarker ++ name).drop 8 = name from by
    rw [show (8 : ℕ) = snipMarker.length from rfl, List.drop_left]]
  rw [hname, hlk]

/-- An all-blank `MainPresetSettings` leaves the positive prompt unchanged. -/
theorem apply_positive_default (raw : List Char) :
    MainPresetSettings.apply_positive ⟨none, none, none, none, none, none⟩ raw = raw := by
  simp [MainPresetSettings.apply_positive, is_blank]

/-- C8: CONFIRMED.  A `<snippet:NAME>` reference (valid name, failed
lookup) makes `expand` return the snippet-not-found error carrying that
name — an `Err`, so no output string is produced and no partial
substitution occurs — and `dry_run` surfaces the same error for the whole
request. -/
theorem c8_snippet_not_found_aborts (lookup : List Char → Option (List Char))
    (plookup : Nat → Option CharacterPreset) (pre name post rawNeg : List Char)
    (slots : List CharacterSlotSettings)
    (hpre : ¬ '<' ∈ pre) (hname : validate_snippet_name name = Except.ok ())
    (hlk : lookup name = none) :
    SnippetResolver.expand lookup (pre ++ '<' :: (snipMarker ++ name ++ '>' :: post))
      = Except.error (CoreErr.snippetNotFound name) ∧
    PromptProcessor.dry_run lookup plookup (pre ++ '<' :: (snipMarker ++ name ++ '>' :: post))
      rawNeg ⟨none, none, none, none, none, none⟩ slots
      = Except.error (CoreErr.snippetNotFound name) := by
  have hexp : SnippetResolver.expand lookup (pre ++ '<' :: (snipMarker ++ name ++ '>' :: post))
      = Except.error (CoreErr.snippetNotFound name) := by
    rw [expand_append lookup pre _ hpre, expand_ref_not_found lookup name post hname hlk]
    rfl
  refine ⟨hexp, ?_⟩
  rw [PromptProcessor.dry_run]
  rw [apply_positive_default]
  rw [hexp]

theorem c8_snippet_not_found_aborts_witness :
    (¬ '<' ∈ ['q', ' ']) ∧
    (validate_snippet_name ['x'] = Except.ok ()) ∧
    ((fun _ : List Char => (none : Option (List Char))) ['x'] = none) ∧
    (SnippetResolver.expand (fun _ => none)
       (['q', ' '] ++ '<' :: (snipMarker ++ ['x'] ++ '>' :: []))
       = Except.error (CoreErr.snippetNotFound ['x']) ∧
     PromptProcessor.dry_run (fun _ => none) (fun _ => none)
       (['q', ' '] ++ '<' :: (snipMarker ++ ['x'] ++ '>' :: []))
       [] ⟨none, none, none, none, none, none⟩ []
       = Except.error (CoreErr.snippetNotFound ['x'])) :=
  ⟨by decide, rfl, rfl,
   c8_snippet_not_found_aborts (fun _ => none) (fun _ => none) ['q', ' '] ['x'] [] [] []
     (by decide) rfl rfl⟩

/-- C9: CONFIRMED.  When `replace` is non-blank it is returned verbatim and
`before`/`after` have no effect, for both the main-preset positive rewrite
and the character-preset rewrite. -/
theorem c9_replace_priority (before after : Option (List Char)) (v raw : List Char)
    (hv : is_blank (some v) = false) :
    MainPresetSettings.apply_positive ⟨before, after, some v, none, none, none⟩ raw = v ∧
    CharacterPreset.apply ⟨before, after, some v, none, none, none⟩ raw = v := by
  constructor
  · simp [MainPresetSettings.apply_positive, hv]
  · simp [CharacterPreset.apply, hv]

theorem c9_replace_priority_witness :
    (is_blank (some ['R']) = false) ∧
    (MainPresetSettings.apply_positive
       ⟨some "ignored".data, some "ignored".data, some ['R'], none, none, none⟩ ['x'] = ['R'] ∧
     CharacterPreset.apply
       ⟨some "ignored".data, some "ignored".data, some ['R'], none, none, none⟩ ['x'] = ['R']) :=
  ⟨by decide, c9_replace_priority (some "ignored".data) (some "ignored".data) ['R'] ['x']
    (by decide)⟩

/-- C10: CONFIRMED.  A snippet name containing a space is rejected by
`validate_snippet_name` (the source's forbidden-character list includes
`' '`, which §7 of the spec omits), and therefore with the same
invalid-name error when a `<snippet:NAME>` reference is resolved during
expansion and when a snippet is created (`Snippet::new`; the first statement
of `CoreStorage::rename_snippet` runs the identical validation). -/
theorem c10_space_in_name_rejected (name category content : List Char)
    (lookup : List Char → Option (List Char)) (post : List Char)
    (hsp : ' ' ∈ name) (hgt : ¬ '>' ∈ name) :
    validate_snippet_name name = Except.error CoreErr.invalidSnippetName ∧
    Snippet.new name category content = Except.error CoreErr.invalidSnippetName ∧
    SnippetResolver.expand lookup ('<' :: (snipMarker ++ name ++ '>' :: post))
      = Except.error CoreErr.invalidSnippetName := by
  have hval : validate_snippet_name name = Except.error CoreErr.invalidSnippetName := by
    rw [validate_snippet_name]
    rw [if_pos]
    simp only [Bool.or_eq_true, List.any_eq_true]
    exact Or.inl ⟨' ', hsp, by decide⟩
  refine ⟨hval, ?_, ?_⟩
  · rw [Snippet.new, hval]
    rfl
  · have hgt2 : ¬ '>' ∈ snipMarker ++ name := by
      intro hmem
      rcases List.mem_append.mp hmem with h | h
      · simp [snipMarker] at h
      · exact hgt h
    rw [show snipMarker ++ name ++ '>' :: post = (snipMarker ++ name) ++ '>' :: post from by
      simp [List.append_assoc]]
    rw [SnippetResolver.expand]
    rw [if_pos rfl]
    rw [collectToken_closed (snipMarker ++ name) post hgt2]
    rw [if_pos (isPrefixOf_self_append snipMarker name)]
    rw [show (snipMarker ++ name).drop 8 = name from by
      rw [show (8 : ℕ) = snipMarker.length from rfl, List.drop_left]]
    rw [hval]

theorem c10_space_in_name_rejected_witness :
    (' ' ∈ ['a', ' ', 'b']) ∧ (¬ '>' ∈ ['a', ' ', 'b']) ∧
    (validate_snippet_name ['a', ' ', 'b'] = Except.error CoreErr.invalidSnippetName ∧
     Snippet.new ['a', ' ', 'b'] ['c'] ['x'] = Except.error CoreErr.invalidSnippetName ∧
     SnippetResolver.expand (fun _ => none)
       ('<' :: (snipMarker ++ ['a', ' ', 'b'] ++ '>' :: []))
       = Except.error CoreErr.invalidSnippetName) :=
  ⟨by decide, by decide,
   c10_space_in_name_rejected ['a', ' ', 'b'] ['c'] ['x'] (fun _ => none) []
     (by decide) (by decide)⟩
